import Mathlib

/-!
Verification development for the carbonapi zipper core.

Shallow embedding of the Go source in `app/zipper/api.go`:
the single-flight query cache (`QueryItem` and its `FetchOrLock`,
`StoreAbort`, `StoreAndUnlock` methods), the per-backend concurrency
limiter, the learned-paths cache updates performed by `Find`, `Render`
and `Probe`, the `BroadcastGroup` server selection (`chooseServers`),
the request splitting of `doSingleFetch`, the context handling of
`BroadcastGroup.Find`, and the empty-aggregate decision at the end of
`BroadcastGroup.Fetch`.

Concurrency is embedded as explicit step relations on small state
types, with one step per atomic operation of the source; pure request
processing is embedded as executable functions.
-/

set_option autoImplicit false

namespace Zipper

/- ===================== definitions ===================== -/

/-- Flag values of a QueryItem (cache package: `Empty`, `QueryIsPending`,
`DataIsAvailable`). -/
inductive Flags where
  | Empty
  | QueryIsPending
  | DataIsAvailable
deriving DecidableEq

/-- State of one `QueryItem`.  `data` models the `atomic.Value` (Go `nil`
is `none`); `epoch` identifies the current `QueryFinished` channel, an
epoch listed in `closedEpochs` is a channel that has been closed;
`parentSize` models the `totalSize` accounting of the parent cache
(a Go `uint64`, hence arithmetic modulo `2 ^ 64`). -/
structure QueryItem (α : Type) where
  data : Option α
  flags : Flags
  epoch : Nat
  closedEpochs : List Nat
  parentSize : Nat
deriving DecidableEq

/-- Which event won the `select` while a non-leader waits: the context
was cancelled first, or the `QueryFinished` channel was closed first. -/
inductive WaitOutcome where
  | ctxFired
  | queryFinished
deriving DecidableEq

/-- `QueryItem.FetchOrLock`: load `Data`; if present return it with
`true`.  Otherwise compare-and-swap `Flags` from `Empty` to
`QueryIsPending`; on success the caller is the leader and gets
`(none, false)`.  Otherwise wait: if the context fires first the result
is `(none, true)`; if the finished signal fires first the result is the
value of `Data` at wake-up time.  `qWake` is the state of the item when
the wait ends (a waiter itself writes nothing); the returned item is
the state as left by this caller. -/
def fetchOrLock {α : Type} (q : QueryItem α) (w : WaitOutcome) (qWake : QueryItem α) :
    (Option α × Bool) × QueryItem α :=
  match q.data with
  | some d => ((some d, true), q)
  | none =>
    if q.flags = Flags.Empty then
      ((none, false), { q with flags := Flags.QueryIsPending })
    else
      match w with
      | WaitOutcome.ctxFired => ((none, true), qWake)
      | WaitOutcome.queryFinished => ((qWake.data, true), qWake)

/-- `QueryItem.StoreAbort`: if `Data` holds a value, return at once;
otherwise store `Empty` into `Flags`, close the current finished
channel and install a fresh one. -/
def storeAbort {α : Type} (q : QueryItem α) : QueryItem α :=
  match q.data with
  | some _ => q
  | none =>
      { q with
          flags := Flags.Empty,
          closedEpochs := q.epoch :: q.closedEpochs,
          epoch := q.epoch + 1 }

/-- `QueryItem.StoreAndUnlock`: store the value, mark `DataIsAvailable`,
close the finished channel and add `size` to the parent cache total
(`uint64` addition). -/
def storeAndUnlock {α : Type} (q : QueryItem α) (v : α) (size : Nat) : QueryItem α :=
  { q with
      data := some v,
      flags := Flags.DataIsAvailable,
      closedEpochs := q.epoch :: q.closedEpochs,
      parentSize := (q.parentSize + size) % 2 ^ 64 }

/-- Shared state of one `QueryItem` as seen by the interleaving of
concurrent callers: the atomic `Flags` word, and the number of callers
that won the CAS and have not yet performed the matching
`StoreAndUnlock` or `StoreAbort`. -/
structure SfState where
  flags : Flags
  leaders : Nat
deriving DecidableEq

/-- Atomic steps of the single-flight protocol.  `lockSuccess` is a
`FetchOrLock` whose CAS from `Empty` succeeds (the only way a call
returns `(nil, false)`); `unlockStore` and `abortStore` are the
leader-path stores; `passive` covers every step that does not write
`Flags` (waiters, cache-hit reads, failed CAS, and the deferred
`StoreAbort` that returns early because data is present). -/
inductive SfStep : SfState → SfState → Prop where
  | lockSuccess (s : SfState) (h : s.flags = Flags.Empty) :
      SfStep s ⟨Flags.QueryIsPending, s.leaders + 1⟩
  | unlockStore (s : SfState) (h : 0 < s.leaders) :
      SfStep s ⟨Flags.DataIsAvailable, s.leaders - 1⟩
  | abortStore (s : SfState) (h : 0 < s.leaders) :
      SfStep s ⟨Flags.Empty, s.leaders - 1⟩
  | passive (s : SfState) : SfStep s s

/-- States reachable from a fresh `QueryItem` as produced by
`QueryCache.GetQueryItem` (`Flags = Empty`, no leader). -/
inductive SfReachable : SfState → Prop where
  | init : SfReachable ⟨Flags.Empty, 0⟩
  | step {s t : SfState} : SfReachable s → SfStep s t → SfReachable t

/-- Backend limiter construction in `net.New`: a buffered channel of
capacity `cfg.Limit` is installed iff `cfg.Limit > 0`, else the backend
has no limiter. -/
def limiterOf (limit : Int) : Option Nat :=
  if 0 < limit then some limit.toNat else none

/-- Atomic steps of `Backend.enter` / `Backend.leave` on the number of
current holders.  With no limiter both calls return immediately and no
token moves.  With a limiter of capacity `c`, `enter` either sends into
the channel (only possible when fewer than `c` tokens are held) or
gives up because the context fired; `leave` receives a token when one
is held, and hits the `default` branch (an error, no change) when the
channel is empty. -/
inductive LimStep : Option Nat → Nat → Nat → Prop where
  | enterNoLimiter (n : Nat) : LimStep none n n
  | enterAcquire (c n : Nat) (h : n < c) : LimStep (some c) n (n + 1)
  | enterCtxDone (c n : Nat) : LimStep (some c) n n
  | leaveNoLimiter (n : Nat) : LimStep none n n
  | leaveRelease (c n : Nat) (h : 0 < n) : LimStep (some c) n (n - 1)
  | leaveDefaultErr (c : Nat) : LimStep (some c) 0 0

/-- Holder counts reachable from a fresh backend (no outstanding call). -/
inductive LimReachable (cap : Option Nat) : Nat → Prop where
  | init : LimReachable cap 0
  | step {n t : Nat} : LimReachable cap n → LimStep cap n t → LimReachable cap t

/-- A Go context reduced to its deadline: `none` means no deadline. -/
structure GoContext where
  deadline : Option Nat
deriving DecidableEq

/-- `context.Background()`: no deadline. -/
def contextBackground : GoContext := ⟨none⟩

/-- `context.WithTimeout(ctx, d)`: the child deadline is `d`, clipped by
the parent deadline when one exists. -/
def withTimeout (ctx : GoContext) (d : Nat) : GoContext :=
  match ctx.deadline with
  | none => ⟨some d⟩
  | some p => ⟨some (min p d)⟩

/-- The Find and Render deadlines of a `BroadcastGroup` (`types.Timeouts`). -/
structure GroupTimeouts where
  find : Nat
  render : Nat
deriving DecidableEq

/-- Context handling of `BroadcastGroup.Find` before dispatching the
`doFind` goroutines (api.go, Find):
`ctx, cancel := context.WithTimeout(ctx, bg.timeout.Render)` followed on
the next line by `ctx = context.Background()`; the resulting `ctx` is
what every `doFind` goroutine receives. -/
def findDispatchCtx (ctx : GoContext) (t : GroupTimeouts) : GoContext :=
  let _derived := withTimeout ctx t.render
  contextBackground

/-- Tail of `BroadcastGroup.Fetch` after the gather loop: if the merged
aggregate holds no metrics, return no response and the error bag with a
`failed to get any response from backend group` entry appended
(`err.Addf`); otherwise return the merged metrics, the stats and the
accumulated error bag unchanged. -/
def fetchDecision {α β : Type} (metrics : List α) (stats : β) (errs : List String) :
    Option (List α × β) × List String :=
  if metrics.length = 0 then
    (none, errs ++ ["failed to get any response from backend group"])
  else
    (some (metrics, stats), errs)

/-- One entry of a Find response (`types.Match` / protov3 `GlobMatch`):
a path and whether it is a leaf. -/
structure Match where
  path : String
  isLeaf : Bool
deriving DecidableEq

/-- Insertion into the learned-paths cache of a backend
(`b.paths.Set(key, struct{}{}, 0, b.pathExpirySec)`); only membership
matters for routing, so the cache is a list of keys. -/
def pathsSet (ps : List String) (k : String) : List String := k :: ps

/-- Learned-paths update of a successful `Backend.Find`: every match
with `IsLeaf` set has its path inserted. -/
def findPathsUpdate (ps : List String) (ms : List Match) : List String :=
  ms.foldl (fun a m => if m.isLeaf then pathsSet a m.path else a) ps

/-- Learned-paths update of a successful `Backend.Render`: every
returned metric name is inserted. -/
def renderPathsUpdate (ps : List String) (names : List String) : List String :=
  names.foldl pathsSet ps

/-- Learned-paths update of a successful `Backend.Probe`: `Probe` calls
`b.Find(ctx, "*")` (whose success already inserted the leaf matches)
and then inserts the path of every returned match, leaf or not. -/
def probePathsUpdate (ps : List String) (ms : List Match) : List String :=
  ms.foldl (fun a m => pathsSet a m.path) (findPathsUpdate ps ms)

/-- `pathcache.PathCache.Get`, modelled from the spec:
`get(prefix) → (list-of-backends, found)`; the cache is an association
list from prefix (a list of characters) to backend lists (backends as
numbers). -/
def pcGet (pc : List (List Char × List Nat)) (k : List Char) : Option (List Nat) :=
  match pc with
  | [] => none
  | e :: rest => if e.1 = k then some e.2 else pcGet rest k

/-- `strings.Index(request, ".")`: position of the first dot, `none`
when absent (Go returns -1). -/
def goIndexDot : List Char → Option Nat
  | [] => none
  | c :: rest => if c = '.' then some 0 else (goIndexDot rest).map (· + 1)

/-- Key derivation of `BroadcastGroup.chooseServers`: the name is cut at
the first dot only when that dot sits at a positive index
(`if idx > 0 { request = request[:idx] }`); a name with no dot, or with
a dot first, is looked up whole. -/
def chooseKey (r : List Char) : List Char :=
  match goIndexDot r with
  | some idx => if 0 < idx then r.take idx else r
  | none => r

/-- The loop of `chooseServers`: each request name contributes the
backend list found under its key when the lookup succeeds with a
non-empty list; contributions are concatenated onto `acc`. -/
def chooseAux (key : List Char → List Char) (pc : List (List Char × List Nat))
    (requests : List (List Char)) (acc : List Nat) : List Nat :=
  match requests with
  | [] => acc
  | r :: rest =>
      match pcGet pc (key r) with
      | some cs =>
          if 0 < cs.length then chooseAux key pc rest (acc ++ cs)
          else chooseAux key pc rest acc
      | none => chooseAux key pc rest acc

/-- Body of `chooseServers` over an abstract key function: collect the
contributions; if none were found return the full client list. -/
def chooseServersWith (key : List Char → List Char) (pc : List (List Char × List Nat))
    (clients : List Nat) (requests : List (List Char)) : List Nat :=
  if (chooseAux key pc requests []).length ≠ 0 then chooseAux key pc requests []
  else clients

/-- `BroadcastGroup.chooseServers` as in the source. -/
def chooseServers (pc : List (List Char × List Nat)) (clients : List Nat)
    (requests : List (List Char)) : List Nat :=
  chooseServersWith chooseKey pc clients requests

/-- Modelled from the words of the spec, for comparison with the source:
the key is the prefix up to the first dot, unconditionally. -/
def specChooseKey (r : List Char) : List Char :=
  match goIndexDot r with
  | some idx => r.take idx
  | none => r

/-- `chooseServers` as the spec words it, for comparison. -/
def specChooseServers (pc : List (List Char × List Nat)) (clients : List Nat)
    (requests : List (List Char)) : List Nat :=
  chooseServersWith specChooseKey pc clients requests

/-- A fetch request entry (protov3 `FetchRequest`) as used by
`doSingleFetch`. -/
structure FetchReq where
  name : String
  startTime : Nat
  stopTime : Nat
  pathExpression : String
  filterFunctions : List String
deriving DecidableEq

/-- One entry of a `MultiGlobResponse` (protov3 `GlobMetric`): a name
and its matches (field `Matches` in the source; `matches` is reserved
in Lean). -/
structure GlobMetric where
  name : String
  globMatches : List Match
deriving DecidableEq

/-- The chunk entry built by `doSingleFetch` for one resolved match: the
match path with the start, stop, path expression and filter functions
of the original metric. -/
def mkChunkReq (metric : FetchReq) (m : Match) : FetchReq :=
  { name := m.path,
    startTime := metric.startTime,
    stopTime := metric.stopTime,
    pathExpression := metric.pathExpression,
    filterFunctions := metric.filterFunctions }

/-- Inner step of the splitting loop of `doSingleFetch`: append the
entry for one match to the chunk under construction; when the chunk
reaches `cap` entries it is emitted and a fresh one started. -/
def packStep (cap : Nat) (metric : FetchReq)
    (st : List (List FetchReq) × List FetchReq) (m : Match) :
    List (List FetchReq) × List FetchReq :=
  let cur := st.2 ++ [mkChunkReq metric m]
  if cur.length = cap then (st.1 ++ [cur], []) else (st.1, cur)

/-- Loop over the matches of one `GlobMetric`. -/
def packMatches (cap : Nat) (metric : FetchReq) (ms : List Match)
    (st : List (List FetchReq) × List FetchReq) :
    List (List FetchReq) × List FetchReq :=
  ms.foldl (packStep cap metric) st

/-- Per-metric body of the splitting loop: loop over the Find result,
then emit the unfinished chunk when non-empty. -/
def packMetric (cap : Nat) (metric : FetchReq) (fms : List GlobMetric)
    (acc : List (List FetchReq)) : List (List FetchReq) :=
  let st := fms.foldl (fun st gm => packMatches cap metric gm.globMatches st) (acc, [])
  if 0 < st.2.length then st.1 ++ [st.2] else st.1

/-- Request splitting of `BroadcastGroup.doSingleFetch`: with
`MaxMetricsPerRequest` zero the original request is dispatched
unchanged as a single request; otherwise each requested metric is
resolved through the group Find (`findRes`, where `none` stands for a
skipped metric: a fatal Find error or a nil response, and an empty
metric list is likewise skipped) and the resolved matches are packed
into chunks of at most `cap` entries. -/
def splitFetchRequests (cap : Nat) (findRes : String → Option (List GlobMetric))
    (request : List FetchReq) : List (List FetchReq) :=
  if cap = 0 then [request]
  else
    request.foldl (fun acc metric =>
      match findRes metric.name with
      | none => acc
      | some fms => if fms.length = 0 then acc else packMetric cap metric fms acc) []

/-- Invariant of the splitting loop state: every emitted chunk has at
most `cap` entries with every entry satisfying `Q`, and the chunk under
construction has fewer than `cap` entries, all satisfying `Q`. -/
def PackInv (cap : Nat) (Q : FetchReq → Prop)
    (st : List (List FetchReq) × List FetchReq) : Prop :=
  (∀ c ∈ st.1, c.length ≤ cap ∧ ∀ r ∈ c, Q r)
  ∧ st.2.length < cap ∧ (∀ r ∈ st.2, Q r)

/- ===================== theorems ===================== -/

/-- C1: `QueryItem.FetchOrLock` satisfies the single-flight contract:
with data stored it returns that value and `true` immediately; with no
data and `Flags = Empty` the CAS succeeds and the caller becomes the
leader, getting `(none, false)` and leaving the flags `QueryIsPending`;
with no data and flags not `Empty` the caller waits, returning
`(none, true)` when its context fires first and `(data at wake, true)`
when the finished signal fires first — the latter value is `none`
exactly when the leader aborted without storing. -/
theorem fetchOrLock_single_flight_contract {α : Type} (q qWake : QueryItem α) :
    (∀ d : α, q.data = some d → ∀ w, fetchOrLock q w qWake = ((some d, true), q))
  ∧ (q.data = none → q.flags = Flags.Empty →
      ∀ w, fetchOrLock q w qWake = ((none, false), { q with flags := Flags.QueryIsPending }))
  ∧ (q.data = none → q.flags ≠ Flags.Empty →
      fetchOrLock q WaitOutcome.ctxFired qWake = ((none, true), qWake))
  ∧ (q.data = none → q.flags ≠ Flags.Empty →
      fetchOrLock q WaitOutcome.queryFinished qWake = ((qWake.data, true), qWake)) := by
  refine ⟨?_, ?_, ?_, ?_⟩
  · intro d hd w
    simp [fetchOrLock, hd]
  · intro hd hf w
    simp [fetchOrLock, hd, hf]
  · intro hd hf
    simp [fetchOrLock, hd, hf]
  · intro hd hf
    simp [fetchOrLock, hd, hf]

/-- Witness for C1: a concrete stored item returns its value at once. -/
theorem fetchOrLock_contract_witness :
    fetchOrLock (⟨some 5, Flags.DataIsAvailable, 0, [], 0⟩ : QueryItem Nat)
        WaitOutcome.ctxFired ⟨none, Flags.Empty, 0, [], 0⟩
      = ((some 5, true), ⟨some 5, Flags.DataIsAvailable, 0, [], 0⟩) :=
  (fetchOrLock_single_flight_contract
      (⟨some 5, Flags.DataIsAvailable, 0, [], 0⟩ : QueryItem Nat)
      ⟨none, Flags.Empty, 0, [], 0⟩).1 5 rfl WaitOutcome.ctxFired

theorem sf_inv {s : SfState} (h : SfReachable s) :
    s.leaders ≤ 1 ∧ (0 < s.leaders → s.flags ≠ Flags.Empty) := by
  induction h with
  | init => simp
  | step hr hst ih =>
    rename_i s t
    cases hst with
    | lockSuccess hf =>
      have hzero : s.leaders = 0 := by
        by_contra hne
        exact (ih.2 (Nat.pos_of_ne_zero hne)) hf
      constructor
      · show s.leaders + 1 ≤ 1
        omega
      · intro _ hemp
        exact Flags.noConfusion hemp
    | unlockStore hpos =>
      have h1 := ih.1
      constructor
      · show s.leaders - 1 ≤ 1
        omega
      · intro _ hemp
        exact Flags.noConfusion hemp
    | abortStore hpos =>
      have h1 := ih.1
      constructor
      · show s.leaders - 1 ≤ 1
        omega
      · intro hpos2 _
        have hp2 : 0 < s.leaders - 1 := hpos2
        omega
    | passive => exact ih

/-- C2: single-flight leader uniqueness.  In every state reachable by an
interleaving of `FetchOrLock`, `StoreAndUnlock` and `StoreAbort` steps
there is at most one current leader; while a leader exists the `Flags`
word is not `Empty`, so no step can increase the leader count — a
concurrent `FetchOrLock` cannot win the CAS and return `(nil, false)`
until the matching `StoreAndUnlock` or `StoreAbort` has run. -/
theorem pending_leader_unique (s : SfState) (h : SfReachable s) :
    s.leaders ≤ 1
  ∧ (0 < s.leaders → s.flags ≠ Flags.Empty)
  ∧ (0 < s.leaders → ∀ t, SfStep s t → t.leaders ≤ s.leaders) := by
  refine ⟨(sf_inv h).1, (sf_inv h).2, ?_⟩
  intro hpos t hst
  cases hst with
  | lockSuccess hf => exact absurd hf ((sf_inv h).2 hpos)
  | unlockStore hp =>
    show s.leaders - 1 ≤ s.leaders
    omega
  | abortStore hp =>
    show s.leaders - 1 ≤ s.leaders
    omega
  | passive => omega

/-- Witness for C2: the state right after a successful CAS is reachable
and has exactly one leader. -/
theorem pending_leader_unique_witness :
    (⟨Flags.QueryIsPending, 1⟩ : SfState).leaders ≤ 1 :=
  (pending_leader_unique ⟨Flags.QueryIsPending, 1⟩
    (SfReachable.step SfReachable.init (SfStep.lockSuccess ⟨Flags.Empty, 0⟩ rfl))).1

/-- C3: on an item with no stored value, `StoreAbort` resets `Flags` to
`Empty`, closes the old finished channel and installs a fresh, still
open one, after which a `FetchOrLock` on the same item wins the CAS and
becomes the new leader, returning `(none, false)`. -/
theorem storeAbort_resets_for_new_leader {α : Type} (q qWake : QueryItem α)
    (hd : q.data = none) (hwf : ∀ e ∈ q.closedEpochs, e < q.epoch) :
    (storeAbort q).flags = Flags.Empty
  ∧ (storeAbort q).data = none
  ∧ q.epoch ∈ (storeAbort q).closedEpochs
  ∧ (storeAbort q).epoch ∉ (storeAbort q).closedEpochs
  ∧ ∀ w, fetchOrLock (storeAbort q) w qWake =
      ((none, false), { storeAbort q with flags := Flags.QueryIsPending }) := by
  have h1 : storeAbort q =
      { q with
          flags := Flags.Empty,
          closedEpochs := q.epoch :: q.closedEpochs,
          epoch := q.epoch + 1 } := by
    simp [storeAbort, hd]
  refine ⟨by simp [h1], by simp [h1, hd], by simp [h1], ?_, ?_⟩
  · intro hmem
    rw [h1] at hmem
    simp only [List.mem_cons] at hmem
    rcases hmem with heq | hmem2
    · omega
    · exact absurd (hwf _ hmem2) (by omega)
  · intro w
    rw [h1]
    simp [fetchOrLock, hd]

/-- Witness for C3: a concrete aborted item closes epoch 3 of its
finished channel. -/
theorem storeAbort_resets_witness :
    (3 : Nat) ∈ (storeAbort (⟨none, Flags.QueryIsPending, 3, [2, 0], 7⟩ : QueryItem Nat)).closedEpochs :=
  (storeAbort_resets_for_new_leader
      (⟨none, Flags.QueryIsPending, 3, [2, 0], 7⟩ : QueryItem Nat)
      ⟨none, Flags.QueryIsPending, 3, [2, 0], 7⟩ rfl (by decide)).2.2.1

/-- C10: `StoreAbort` on an item whose value is stored is a no-op: it
changes neither `Data`, `Flags`, the finished channel, nor the parent
size accounting; in particular the deferred `StoreAbort` that runs
after a successful `StoreAndUnlock` leaves the stored result intact. -/
theorem storeAbort_noop_after_store {α : Type} (q : QueryItem α) (v : α) (size : Nat) :
    (∀ d : α, q.data = some d → storeAbort q = q)
  ∧ storeAbort (storeAndUnlock q v size) = storeAndUnlock q v size := by
  constructor
  · intro d hd
    simp [storeAbort, hd]
  · rfl

/-- Witness for C10: the deferred abort after a concrete store changes
nothing. -/
theorem storeAbort_noop_witness :
    storeAbort (storeAndUnlock (⟨none, Flags.QueryIsPending, 0, [], 0⟩ : QueryItem Nat) 5 9)
      = storeAndUnlock (⟨none, Flags.QueryIsPending, 0, [], 0⟩ : QueryItem Nat) 5 9 :=
  (storeAbort_noop_after_store (⟨none, Flags.QueryIsPending, 0, [], 0⟩ : QueryItem Nat) 5 9).2

/-- C5: a backend configured with a positive concurrency limit gets a
limiter of that capacity, and in every reachable interleaving of
`enter` and `leave` steps the number of current holders never exceeds
it; a backend with no configured limit admits every `enter`
immediately. -/
theorem limiter_ceiling (limit : Int) (c n : Nat)
    (_hc : limiterOf limit = some c) (hr : LimReachable (some c) n) :
    n ≤ c ∧ (∀ m : Nat, LimStep none m m) := by
  constructor
  · induction hr with
    | init => exact Nat.zero_le c
    | step hr hst ih =>
      cases hst with
      | enterAcquire h => omega
      | enterCtxDone => omega
      | leaveRelease h => omega
      | leaveDefaultErr => omega
  · intro m
    exact LimStep.enterNoLimiter m

/-- Witness for C5: with configured limit 2, the two-holder state is
reachable and within the ceiling. -/
theorem limiter_ceiling_witness : (2 : Nat) ≤ 2 :=
  (limiter_ceiling 2 2 2 (by decide)
    (LimReachable.step
      (LimReachable.step LimReachable.init (LimStep.enterAcquire 2 0 (by decide)))
      (LimStep.enterAcquire 2 1 (by decide)))).1

/-- C7: the context actually passed to the `doFind` goroutines of
`BroadcastGroup.Find` is `context.Background()` — the deadline derived
just before (from the Render timeout, not even the Find timeout) is
discarded by the immediate reassignment, so the dispatched calls carry
no deadline at all, contradicting the documented contract that they run
under the Find deadline. -/
theorem find_dispatch_background_ctx :
    ∀ (ctx : GoContext) (t : GroupTimeouts),
      findDispatchCtx ctx t = contextBackground
    ∧ (findDispatchCtx ctx t).deadline = none
    ∧ findDispatchCtx ctx t ≠ withTimeout ctx t.find := by
  intro ctx t
  refine ⟨rfl, rfl, ?_⟩
  cases h : ctx.deadline <;>
    simp [findDispatchCtx, withTimeout, contextBackground, h]

/-- C9: the tail of `BroadcastGroup.Fetch` fails exactly when the merged
aggregate is empty: no response is returned iff the merged metric list
is empty, and a non-empty merge returns the merged data together with
the accumulated per-backend error bag unchanged, whatever errors
(timeouts, failed backends) that bag holds. -/
theorem fetch_fails_iff_empty {α β : Type} (metrics : List α) (stats : β) (errs : List String) :
    ((fetchDecision metrics stats errs).1 = none ↔ metrics = [])
  ∧ (metrics ≠ [] →
      fetchDecision metrics stats errs = (some (metrics, stats), errs)) := by
  constructor
  · by_cases h : metrics = [] <;> simp [fetchDecision, h]
  · intro h
    simp [fetchDecision, h]

/-- Witness for C9: a merge holding one metric succeeds and carries the
error bag through. -/
theorem fetch_fails_iff_empty_witness :
    fetchDecision [(0 : Nat)] (0 : Nat) ["timeout"] = (some ([0], 0), ["timeout"]) :=
  (fetch_fails_iff_empty [(0 : Nat)] (0 : Nat) ["timeout"]).2 (by decide)

theorem mem_condFold (ms : List Match) (ps : List String) (p : String) :
    (p ∈ ms.foldl (fun a m => if m.isLeaf then pathsSet a m.path else a) ps) ↔
      p ∈ ps ∨ ∃ m ∈ ms, m.isLeaf = true ∧ m.path = p := by
  induction ms generalizing ps with
  | nil => simp
  | cons m ms ih =>
    rw [List.foldl_cons]
    by_cases h : m.isLeaf = true
    · rw [if_pos h, ih]
      simp only [pathsSet, List.mem_cons]
      constructor
      · rintro (h2 | ⟨x, hx, hx2⟩)
        · rcases h2 with h2 | h2
          · exact Or.inr ⟨m, Or.inl rfl, h, h2.symm⟩
          · exact Or.inl h2
        · exact Or.inr ⟨x, Or.inr hx, hx2⟩
      · rintro (h2 | ⟨x, hx, hx2⟩)
        · exact Or.inl (Or.inr h2)
        · rcases hx with rfl | hx3
          · exact Or.inl (Or.inl hx2.2.symm)
          · exact Or.inr ⟨x, hx3, hx2⟩
    · rw [if_neg h, ih]
      constructor
      · rintro (h2 | ⟨x, hx, hx2⟩)
        · exact Or.inl h2
        · exact Or.inr ⟨x, List.mem_cons_of_mem m hx, hx2⟩
      · rintro (h2 | ⟨x, hx, hx2⟩)
        · exact Or.inl h2
        · rcases List.mem_cons.mp hx with rfl | hx3
          · exact absurd hx2.1 h
          · exact Or.inr ⟨x, hx3, hx2⟩

theorem mem_allFold (ms : List Match) (ps : List String) (p : String) :
    (p ∈ ms.foldl (fun a m => pathsSet a m.path) ps) ↔
      p ∈ ps ∨ ∃ m ∈ ms, m.path = p := by
  induction ms generalizing ps with
  | nil => simp
  | cons m ms ih =>
    rw [List.foldl_cons, ih]
    simp only [pathsSet, List.mem_cons]
    constructor
    · rintro (h2 | ⟨x, hx, hx2⟩)
      · rcases h2 with h2 | h2
        · exact Or.inr ⟨m, Or.inl rfl, h2.symm⟩
        · exact Or.inl h2
      · exact Or.inr ⟨x, Or.inr hx, hx2⟩
    · rintro (h2 | ⟨x, hx, hx2⟩)
      · exact Or.inl (Or.inr h2)
      · rcases hx with rfl | hx3
        · exact Or.inl (Or.inl hx2.symm)
        · exact Or.inr ⟨x, hx3, hx2⟩

theorem mem_namesFold (names : List String) (ps : List String) (p : String) :
    (p ∈ names.foldl pathsSet ps) ↔ p ∈ ps ∨ p ∈ names := by
  induction names generalizing ps with
  | nil => simp
  | cons n names ih =>
    rw [List.foldl_cons, ih]
    simp only [pathsSet, List.mem_cons]
    tauto

/-- C4 counterexample: a successful `Probe` whose Find result is the
single non-leaf match `{path: a, isLeaf: false}` inserts the path `a`
into the learned-paths cache, so the cache gains a path that was not
observed as a leaf. -/
theorem probe_inserts_nonleaf :
    "a" ∈ probePathsUpdate [] [⟨"a", false⟩]
  ∧ ¬ (∀ p ∈ probePathsUpdate [] [⟨"a", false⟩],
        p ∈ ([] : List String) ∨
          ∃ m ∈ ([⟨"a", false⟩] : List Match), m.isLeaf = true ∧ m.path = p) := by
  constructor
  · decide
  · intro h
    rcases h "a" (by decide) with h2 | ⟨m, hm, h3, h4⟩
    · exact absurd h2 (by decide)
    · rcases List.mem_singleton.mp hm with rfl
      exact Bool.noConfusion h3

/-- C4 amended: the learned-paths cache of a backend gains exactly the
leaf paths of a successful `Find` response; a successful `Render`
inserts every returned metric name; a successful `Probe` inserts the
path of every match of its `Find("*")` response, leaf or not. -/
theorem paths_cache_insertions (p : String) (ps : List String) (ms : List Match)
    (names : List String) :
    (p ∈ findPathsUpdate ps ms ↔ p ∈ ps ∨ ∃ m ∈ ms, m.isLeaf = true ∧ m.path = p)
  ∧ (p ∈ renderPathsUpdate ps names ↔ p ∈ ps ∨ p ∈ names)
  ∧ (p ∈ probePathsUpdate ps ms ↔ p ∈ ps ∨ ∃ m ∈ ms, m.path = p) := by
  refine ⟨mem_condFold ms ps p, mem_namesFold names ps p, ?_⟩
  rw [probePathsUpdate, mem_allFold, findPathsUpdate, mem_condFold]
  constructor
  · rintro ((h | ⟨m, hm, _, h2⟩) | ⟨m, hm, h2⟩)
    · exact Or.inl h
    · exact Or.inr ⟨m, hm, h2⟩
    · exact Or.inr ⟨m, hm, h2⟩
  · rintro (h | ⟨m, hm, h2⟩)
    · exact Or.inl (Or.inl h)
    · exact Or.inr ⟨m, hm, h2⟩

theorem chooseAux_append (key : List Char → List Char) (pc : List (List Char × List Nat))
    (rs : List (List Char)) (acc : List Nat) :
    chooseAux key pc rs acc = acc ++ chooseAux key pc rs [] := by
  induction rs generalizing acc with
  | nil => simp [chooseAux]
  | cons r rs ih =>
    rcases hg : pcGet pc (key r) with _ | cs
    · simp only [chooseAux, hg]
      exact ih acc
    · by_cases hl : 0 < cs.length
      · simp only [chooseAux, hg, if_pos hl, List.nil_append]
        rw [ih (acc ++ cs), ih cs, List.append_assoc]
      · simp only [chooseAux, hg, if_neg hl]
        exact ih acc

theorem mem_chooseAux (key : List Char → List Char) (pc : List (List Char × List Nat))
    (rs : List (List Char)) (n : Nat) :
    n ∈ chooseAux key pc rs [] ↔
      ∃ r ∈ rs, ∃ cs, pcGet pc (key r) = some cs ∧ 0 < cs.length ∧ n ∈ cs := by
  induction rs with
  | nil => simp [chooseAux]
  | cons r rs ih =>
    rcases hg : pcGet pc (key r) with _ | cs
    · have heq : chooseAux key pc (r :: rs) [] = chooseAux key pc rs [] := by
        simp only [chooseAux, hg]
      rw [heq, ih]
      constructor
      · rintro ⟨x, hx, hcs⟩
        exact ⟨x, List.mem_cons_of_mem r hx, hcs⟩
      · rintro ⟨x, hx, cs2, hcs2, hl2, hn2⟩
        rcases List.mem_cons.mp hx with rfl | hx3
        · rw [hg] at hcs2
          exact Option.noConfusion hcs2
        · exact ⟨x, hx3, cs2, hcs2, hl2, hn2⟩
    · by_cases hl : 0 < cs.length
      · have heq : chooseAux key pc (r :: rs) [] = chooseAux key pc rs cs := by
          simp only [chooseAux, hg, if_pos hl, List.nil_append]
        rw [heq, chooseAux_append key pc rs cs, List.mem_append, ih]
        constructor
        · rintro (hn | ⟨x, hx, hcs⟩)
          · exact ⟨r, List.mem_cons_self r rs, cs, hg, hl, hn⟩
          · exact ⟨x, List.mem_cons_of_mem r hx, hcs⟩
        · rintro ⟨x, hx, cs2, hcs2, hl2, hn2⟩
          rcases List.mem_cons.mp hx with rfl | hx3
          · rw [hg] at hcs2
            obtain rfl := Option.some.inj hcs2
            exact Or.inl hn2
          · exact Or.inr ⟨x, hx3, cs2, hcs2, hl2, hn2⟩
      · have heq : chooseAux key pc (r :: rs) [] = chooseAux key pc rs [] := by
          simp only [chooseAux, hg, if_neg hl]
        rw [heq, ih]
        constructor
        · rintro ⟨x, hx, hcs⟩
          exact ⟨x, List.mem_cons_of_mem r hx, hcs⟩
        · rintro ⟨x, hx, cs2, hcs2, hl2, hn2⟩
          rcases List.mem_cons.mp hx with rfl | hx3
          · rw [hg] at hcs2
            obtain rfl := Option.some.inj hcs2
            exact absurd hl2 hl
          · exact ⟨x, hx3, cs2, hcs2, hl2, hn2⟩

theorem chooseAux_nil_iff (key : List Char → List Char) (pc : List (List Char × List Nat))
    (rs : List (List Char)) :
    chooseAux key pc rs [] = [] ↔
      ∀ r ∈ rs, ∀ cs, pcGet pc (key r) = some cs → cs = [] := by
  rw [List.eq_nil_iff_forall_not_mem]
  constructor
  · intro h r hr cs hcs
    rw [List.eq_nil_iff_forall_not_mem]
    intro n hn
    exact h n ((mem_chooseAux key pc rs n).mpr
      ⟨r, hr, cs, hcs, List.length_pos_of_mem hn, hn⟩)
  · intro h n hn
    obtain ⟨r, hr, cs, hcs, hl2, hncs⟩ := (mem_chooseAux key pc rs n).mp hn
    have hnil := h r hr cs hcs
    rw [hnil] at hncs
    exact absurd hncs (List.not_mem_nil n)

/-- C6 counterexample: for the request name `.x` (first dot at index 0)
the source looks up the whole name `.x` in the PathCache rather than
the literal prefix up to the first dot (the empty string); with the
cache holding `.x -> [1]` and client list `[9]`, the source returns
`[1]` while the claim as worded prescribes the fallback `[9]`. -/
theorem chooseServers_leading_dot_cex :
    chooseServers [(['.', 'x'], [1])] [9] [['.', 'x']] = [1]
  ∧ specChooseServers [(['.', 'x'], [1])] [9] [['.', 'x']] = [9]
  ∧ chooseServers [(['.', 'x'], [1])] [9] [['.', 'x']]
      ≠ specChooseServers [(['.', 'x'], [1])] [9] [['.', 'x']] := by
  refine ⟨?_, ?_, ?_⟩ <;> decide

/-- C6 amended: `chooseServers` looks each name up under its prefix
before the first dot when that dot is at a positive index, and under
the whole name when the name has no dot or starts with one; found
non-empty backend lists are concatenated, and a member of the result is
exactly a member of such a contribution — unless every lookup was
missing or empty, in which case the full client list of the group is
returned. -/
theorem chooseServers_characterization (pc : List (List Char × List Nat))
    (clients : List Nat) (requests : List (List Char)) (n : Nat) :
    n ∈ chooseServers pc clients requests ↔
      ((∃ r ∈ requests, ∃ cs, pcGet pc (chooseKey r) = some cs ∧ 0 < cs.length ∧ n ∈ cs)
       ∨ ((∀ r ∈ requests, ∀ cs, pcGet pc (chooseKey r) = some cs → cs = [])
          ∧ n ∈ clients)) := by
  unfold chooseServers chooseServersWith
  by_cases h : chooseAux chooseKey pc requests [] = []
  · rw [if_neg (by simp [h])]
    constructor
    · intro hn
      exact Or.inr ⟨(chooseAux_nil_iff chooseKey pc requests).mp h, hn⟩
    · rintro (⟨r, hr, cs, hcs, hl, hn⟩ | ⟨_, hn⟩)
      · have hmem := (mem_chooseAux chooseKey pc requests n).mpr ⟨r, hr, cs, hcs, hl, hn⟩
        rw [h] at hmem
        exact absurd hmem (List.not_mem_nil n)
      · exact hn
  · rw [if_pos (by simpa using fun h0 => h (List.length_eq_zero.mp h0))]
    rw [mem_chooseAux]
    constructor
    · intro hx
      exact Or.inl hx
    · rintro (hx | ⟨hall, _⟩)
      · exact hx
      · exact absurd ((chooseAux_nil_iff chooseKey pc requests).mpr hall) h

theorem packStep_inv (cap : Nat) (hcap : 0 < cap) (metric : FetchReq) (Q : FetchReq → Prop)
    (st : List (List FetchReq) × List FetchReq) (m : Match)
    (hq : Q (mkChunkReq metric m)) (h : PackInv cap Q st) :
    PackInv cap Q (packStep cap metric st m) := by
  obtain ⟨h1, h2, h3⟩ := h
  have hmem : ∀ r ∈ st.2 ++ [mkChunkReq metric m], Q r := by
    intro r hr
    rcases List.mem_append.mp hr with hr | hr
    · exact h3 r hr
    · rw [List.mem_singleton.mp hr]
      exact hq
  simp only [packStep]
  by_cases hlen : (st.2 ++ [mkChunkReq metric m]).length = cap
  · rw [if_pos hlen]
    refine ⟨?_, by simpa using hcap, by simp⟩
    intro c hc
    rcases List.mem_append.mp hc with hc | hc
    · exact h1 c hc
    · rw [List.mem_singleton.mp hc]
      exact ⟨le_of_eq hlen, hmem⟩
  · rw [if_neg hlen]
    refine ⟨h1, ?_, hmem⟩
    have hadd : (st.2 ++ [mkChunkReq metric m]).length = st.2.length + 1 := by simp
    show (st.2 ++ [mkChunkReq metric m]).length < cap
    omega

theorem packMatches_inv (cap : Nat) (hcap : 0 < cap) (metric : FetchReq) (Q : FetchReq → Prop) :
    ∀ (ms : List Match) (st : List (List FetchReq) × List FetchReq),
      (∀ m ∈ ms, Q (mkChunkReq metric m)) → PackInv cap Q st →
      PackInv cap Q (packMatches cap metric ms st) := by
  intro ms
  induction ms with
  | nil =>
    intro st _ h
    simpa [packMatches] using h
  | cons m ms ih =>
    intro st hm h
    have heq : packMatches cap metric (m :: ms) st
        = packMatches cap metric ms (packStep cap metric st m) := by
      simp [packMatches]
    rw [heq]
    exact ih (packStep cap metric st m)
      (fun x hx => hm x (List.mem_cons_of_mem m hx))
      (packStep_inv cap hcap metric Q st m (hm m (List.mem_cons_self m ms)) h)

theorem packGlob_inv (cap : Nat) (hcap : 0 < cap) (metric : FetchReq) (Q : FetchReq → Prop) :
    ∀ (fms : List GlobMetric) (st : List (List FetchReq) × List FetchReq),
      (∀ gm ∈ fms, ∀ m ∈ gm.globMatches, Q (mkChunkReq metric m)) → PackInv cap Q st →
      PackInv cap Q (fms.foldl (fun st gm => packMatches cap metric gm.globMatches st) st) := by
  intro fms
  induction fms with
  | nil =>
    intro st _ h
    simpa using h
  | cons gm fms ih =>
    intro st hm h
    rw [List.foldl_cons]
    exact ih _ (fun x hx => hm x (List.mem_cons_of_mem gm hx))
      (packMatches_inv cap hcap metric Q gm.globMatches st
        (hm gm (List.mem_cons_self gm fms)) h)

theorem packMetric_chunks (cap : Nat) (hcap : 0 < cap) (metric : FetchReq)
    (Q : FetchReq → Prop) (fms : List GlobMetric) (acc : List (List FetchReq))
    (hms : ∀ gm ∈ fms, ∀ m ∈ gm.globMatches, Q (mkChunkReq metric m))
    (hacc : ∀ c ∈ acc, c.length ≤ cap ∧ ∀ r ∈ c, Q r) :
    ∀ c ∈ packMetric cap metric fms acc, c.length ≤ cap ∧ ∀ r ∈ c, Q r := by
  have h0 : PackInv cap Q (acc, []) := ⟨hacc, by simpa using hcap, by simp⟩
  obtain ⟨ha, hb, hc⟩ := packGlob_inv cap hcap metric Q fms (acc, []) hms h0
  simp only [packMetric]
  by_cases h2 : 0 <
      (fms.foldl (fun st gm => packMatches cap metric gm.globMatches st) (acc, [])).2.length
  · rw [if_pos h2]
    intro c hcmem
    rcases List.mem_append.mp hcmem with hcmem | hcmem
    · exact ha c hcmem
    · rw [List.mem_singleton.mp hcmem]
      exact ⟨Nat.le_of_lt hb, hc⟩
  · rw [if_neg h2]
    exact ha

theorem split_aux (cap : Nat) (hcap : 0 < cap) (findRes : String → Option (List GlobMetric))
    (Q : FetchReq → Prop) :
    ∀ (rs : List FetchReq) (acc : List (List FetchReq)),
      (∀ metric ∈ rs, ∀ fms, findRes metric.name = some fms →
        ∀ gm ∈ fms, ∀ m ∈ gm.globMatches, Q (mkChunkReq metric m)) →
      (∀ c ∈ acc, c.length ≤ cap ∧ ∀ r ∈ c, Q r) →
      ∀ c ∈ rs.foldl (fun acc metric =>
          match findRes metric.name with
          | none => acc
          | some fms => if fms.length = 0 then acc else packMetric cap metric fms acc) acc,
        c.length ≤ cap ∧ ∀ r ∈ c, Q r := by
  intro rs
  induction rs with
  | nil =>
    intro acc _ hacc
    simpa using hacc
  | cons metric rs ih =>
    intro acc hq hacc
    rw [List.foldl_cons]
    apply ih
    · exact fun x hx => hq x (List.mem_cons_of_mem metric hx)
    · rcases hg : findRes metric.name with _ | fms
      · exact hacc
      · show ∀ c ∈ (if fms.length = 0 then acc else packMetric cap metric fms acc),
          c.length ≤ cap ∧ ∀ r ∈ c, Q r
        by_cases hlen : fms.length = 0
        · rw [if_pos hlen]
          exact hacc
        · rw [if_neg hlen]
          exact packMetric_chunks cap hcap metric Q fms acc
            (hq metric (List.mem_cons_self metric rs) fms hg) hacc

/-- C8 counterexample: with cap 1, one requested metric `a`, and a Find
result holding the single non-leaf match `{path: a.b, isLeaf: false}`,
`doSingleFetch` emits a chunk carrying `a.b` — the packed entries are
not restricted to leaves of the Find result, contradicting the claim
that the resulting leaves are what gets packed. -/
theorem split_packs_nonleaf_cex :
    splitFetchRequests 1
        (fun n => if n = "a" then some [⟨"a", [⟨"a.b", false⟩]⟩] else none)
        [⟨"a", 1, 2, "a", []⟩]
      = [[⟨"a.b", 1, 2, "a", []⟩]]
  ∧ ¬ (∀ chunk ∈ splitFetchRequests 1
        (fun n => if n = "a" then some [⟨"a", [⟨"a.b", false⟩]⟩] else none)
        [⟨"a", 1, 2, "a", []⟩],
        ∀ r ∈ chunk,
          ∃ gm ∈ ([⟨"a", [⟨"a.b", false⟩]⟩] : List GlobMetric),
            ∃ m ∈ gm.globMatches, m.isLeaf = true ∧ r.name = m.path) := by
  refine ⟨by decide, ?_⟩
  intro h
  have h2 := h [⟨"a.b", 1, 2, "a", []⟩] (by decide) ⟨"a.b", 1, 2, "a", []⟩ (by decide)
  obtain ⟨gm, hgm, m, hm, hleaf, _⟩ := h2
  rcases List.mem_singleton.mp hgm with rfl
  rcases List.mem_singleton.mp hm with rfl
  exact Bool.noConfusion hleaf

theorem packStep_join (cap : Nat) (metric : FetchReq)
    (st : List (List FetchReq) × List FetchReq) (m : Match) :
    ((packStep cap metric st m).1).join ++ (packStep cap metric st m).2
      = st.1.join ++ st.2 ++ [mkChunkReq metric m] := by
  simp only [packStep]
  by_cases hlen : (st.2 ++ [mkChunkReq metric m]).length = cap
  · rw [if_pos hlen]
    simp [List.append_assoc]
  · rw [if_neg hlen]
    simp [List.append_assoc]

theorem packMatches_join (cap : Nat) (metric : FetchReq) :
    ∀ (ms : List Match) (st : List (List FetchReq) × List FetchReq),
      ((packMatches cap metric ms st).1).join ++ (packMatches cap metric ms st).2
        = st.1.join ++ st.2 ++ ms.map (mkChunkReq metric) := by
  intro ms
  induction ms with
  | nil =>
    intro st
    simp [packMatches]
  | cons m ms ih =>
    intro st
    have heq : packMatches cap metric (m :: ms) st
        = packMatches cap metric ms (packStep cap metric st m) := by
      simp [packMatches]
    rw [heq, ih, packStep_join]
    simp [List.append_assoc]

theorem packGlob_join (cap : Nat) (metric : FetchReq) :
    ∀ (fms : List GlobMetric) (st : List (List FetchReq) × List FetchReq),
      ((fms.foldl (fun st gm => packMatches cap metric gm.globMatches st) st).1).join
        ++ (fms.foldl (fun st gm => packMatches cap metric gm.globMatches st) st).2
        = st.1.join ++ st.2 ++ fms.bind (fun gm => gm.globMatches.map (mkChunkReq metric)) := by
  intro fms
  induction fms with
  | nil =>
    intro st
    simp
  | cons gm fms ih =>
    intro st
    rw [List.foldl_cons, ih, packMatches_join]
    simp [List.append_assoc]

theorem packMetric_join (cap : Nat) (metric : FetchReq) (fms : List GlobMetric)
    (acc : List (List FetchReq)) :
    (packMetric cap metric fms acc).join
      = acc.join ++ fms.bind (fun gm => gm.globMatches.map (mkChunkReq metric)) := by
  simp only [packMetric]
  set st := fms.foldl (fun st gm => packMatches cap metric gm.globMatches st) (acc, []) with hst
  have hj : st.1.join ++ st.2
      = acc.join ++ fms.bind (fun gm => gm.globMatches.map (mkChunkReq metric)) := by
    rw [hst]
    simpa using packGlob_join cap metric fms (acc, [])
  by_cases h2 : 0 < st.2.length
  · rw [if_pos h2]
    have hjoin : (st.1 ++ [st.2]).join = st.1.join ++ st.2 := by simp
    rw [hjoin, hj]
  · rw [if_neg h2]
    have hnil : st.2 = [] := List.length_eq_zero.mp (Nat.eq_zero_of_not_pos h2)
    rw [hnil] at hj
    simpa using hj

theorem splitFold_join (cap : Nat) (findRes : String → Option (List GlobMetric)) :
    ∀ (rs : List FetchReq) (acc : List (List FetchReq)),
      (rs.foldl (fun acc metric =>
          match findRes metric.name with
          | none => acc
          | some fms => if fms.length = 0 then acc else packMetric cap metric fms acc) acc).join
        = acc.join ++ rs.bind (fun metric =>
            match findRes metric.name with
            | none => []
            | some fms => fms.bind (fun gm => gm.globMatches.map (mkChunkReq metric))) := by
  intro rs
  induction rs with
  | nil =>
    intro acc
    simp
  | cons metric rs ih =>
    intro acc
    simp only [List.foldl_cons]
    rw [ih]
    rcases hg : findRes metric.name with _ | fms
    · simp [hg]
    · by_cases hlen : fms.length = 0
      · obtain rfl := List.length_eq_zero.mp hlen
        simp [hg]
      · simp only [hg, if_neg hlen, packMetric_join]
        simp [hg, List.append_assoc]

/-- C8 amended: with `MaxMetricsPerRequest` zero the original request is
dispatched unchanged as a single request; with cap `m > 0` every
emitted chunk carries at most `m` entries, each built from some match
returned by the group Find for some requested metric — leaf or not —
inheriting that metric's StartTime, StopTime, PathExpression and
FilterFunctions; and conversely the chunks cover all returned matches:
their concatenation equals, metric by metric and in order, the entry
lists of every resolved metric's matches, so every match returned by
Find for a requested metric is packed into some chunk. -/
theorem splitFetchRequests_spec (cap : Nat) (findRes : String → Option (List GlobMetric))
    (request : List FetchReq) :
    (cap = 0 → splitFetchRequests cap findRes request = [request])
  ∧ (0 < cap →
      (∀ chunk ∈ splitFetchRequests cap findRes request,
        chunk.length ≤ cap ∧
        ∀ r ∈ chunk, ∃ metric ∈ request, ∃ fms, findRes metric.name = some fms ∧
          ∃ gm ∈ fms, ∃ m ∈ gm.globMatches, r = mkChunkReq metric m)
      ∧ (splitFetchRequests cap findRes request).join
          = request.bind (fun metric =>
              match findRes metric.name with
              | none => []
              | some fms => fms.bind (fun gm => gm.globMatches.map (mkChunkReq metric)))
      ∧ (∀ metric ∈ request, ∀ fms, findRes metric.name = some fms →
          ∀ gm ∈ fms, ∀ m ∈ gm.globMatches,
            ∃ chunk ∈ splitFetchRequests cap findRes request,
              mkChunkReq metric m ∈ chunk)) := by
  constructor
  · intro h
    simp [splitFetchRequests, h]
  · intro hcap
    have hne : ¬ cap = 0 := by omega
    have hsplit : splitFetchRequests cap findRes request
        = request.foldl (fun acc metric =>
            match findRes metric.name with
            | none => acc
            | some fms => if fms.length = 0 then acc else packMetric cap metric fms acc) [] := by
      rw [splitFetchRequests, if_neg hne]
    have hjoin : (splitFetchRequests cap findRes request).join
        = request.bind (fun metric =>
            match findRes metric.name with
            | none => []
            | some fms => fms.bind (fun gm => gm.globMatches.map (mkChunkReq metric))) := by
      rw [hsplit, splitFold_join]
      simp
    refine ⟨?_, hjoin, ?_⟩
    · intro chunk hchunk
      rw [hsplit] at hchunk
      exact split_aux cap hcap findRes
        (fun r => ∃ metric ∈ request, ∃ fms, findRes metric.name = some fms ∧
          ∃ gm ∈ fms, ∃ m ∈ gm.globMatches, r = mkChunkReq metric m)
        request []
        (fun metric hmet fms hfms gm hgm m hm => ⟨metric, hmet, fms, hfms, gm, hgm, m, hm, rfl⟩)
        (by simp) chunk hchunk
    · intro metric hmet fms hfms gm hgm m hm
      have hmem : mkChunkReq metric m ∈ (splitFetchRequests cap findRes request).join := by
        rw [hjoin]
        refine List.mem_bind.mpr ⟨metric, hmet, ?_⟩
        rw [hfms]
        exact List.mem_bind.mpr ⟨gm, hgm, List.mem_map_of_mem _ hm⟩
      obtain ⟨chunk, hc1, hc2⟩ := List.mem_join.mp hmem
      exact ⟨chunk, hc1, hc2⟩

/-- Witness for C8: a zero cap dispatches the concrete request
unchanged. -/
theorem splitFetchRequests_spec_witness :
    splitFetchRequests 0 (fun _ => (none : Option (List GlobMetric)))
        [(⟨"a", 1, 2, "a", []⟩ : FetchReq)]
      = [[⟨"a", 1, 2, "a", []⟩]] :=
  (splitFetchRequests_spec 0 (fun _ => (none : Option (List GlobMetric)))
    [(⟨"a", 1, 2, "a", []⟩ : FetchReq)]).1 rfl

end Zipper
